import Mathlib

/-!
Verification of `parallel_cp.py` against its specification.

The program copies a file in `parts` slices: `get_copy_offsets` plans the
byte ranges using Python float arithmetic, `partial_copy` (here `copyWorker`)
copies one slice in 1 MiB blocks while answering progress requests over a
pipe, `Child.update` is the coordinator's per-tick bookkeeping, and
`merge_files` concatenates the slice files onto the destination.

Files are lists of bytes (`List ℕ`); Python's unbounded integers are `ℕ`/`ℤ`.
Python floats are modelled by `rnd`, the round-to-nearest, ties-to-even
rounding of a rational to 53 significant bits, with unbounded exponent range:
this agrees exactly with IEEE-754 binary64 (and hence CPython float
arithmetic) for every value whose magnitude lies strictly between the
subnormal threshold and the overflow threshold, which covers all quantities
reachable here for any remotely realizable file size and part count.
-/

namespace ParallelCp

/-- Round a rational to the nearest integer, ties to even
(the IEEE-754 default rounding of a significand). -/
def roundNE (s : ℚ) : ℤ :=
  let f := ⌊s⌋
  if s - f < 1/2 then f
  else if 1/2 < s - f then f + 1
  else if f % 2 = 0 then f else f + 1

/-- Round a positive rational to 53 significant bits (binary64 precision),
nearest, ties to even. -/
def rndPos (q : ℚ) : ℚ :=
  let e : ℤ := Int.log 2 q
  ((roundNE (q * 2 ^ ((52 : ℤ) - e)) : ℚ)) * 2 ^ (e - (52 : ℤ))

/-- Binary64 rounding of a rational: the value CPython stores for this
real number as a `float` (unbounded exponent range, see file comment). -/
def rnd (q : ℚ) : ℚ :=
  if 0 < q then rndPos q else if q < 0 then -rndPos (-q) else 0

theorem roundNE_intCast (n : ℤ) : roundNE (n : ℚ) = n := by
  simp only [roundNE, Int.floor_intCast]
  norm_num

theorem le_roundNE (s : ℚ) : ⌊s⌋ ≤ roundNE s := by
  simp only [roundNE]
  split <;> [skip; split] <;> [omega; omega; split <;> omega]

theorem roundNE_le_floor_add_one (s : ℚ) : roundNE s ≤ ⌊s⌋ + 1 := by
  simp only [roundNE]
  split <;> [skip; split] <;> [omega; omega; split <;> omega]

theorem roundNE_le_add_half (s : ℚ) : (roundNE s : ℚ) ≤ s + 1/2 := by
  have hf := Int.floor_le s
  simp only [roundNE]
  split <;> rename_i h1
  · linarith
  · split <;> rename_i h2
    · push_cast
      linarith
    · have h3 : s - ⌊s⌋ = 1/2 := le_antisymm (not_lt.mp h2) (not_lt.mp h1)
      split <;> push_cast <;> linarith

theorem roundNE_mono {s t : ℚ} (h : s ≤ t) : roundNE s ≤ roundNE t := by
  have hfl : ⌊s⌋ ≤ ⌊t⌋ := Int.floor_le_floor h
  rcases lt_or_eq_of_le hfl with hlt | heq
  · calc roundNE s ≤ ⌊s⌋ + 1 := roundNE_le_floor_add_one s
      _ ≤ ⌊t⌋ := by omega
      _ ≤ roundNE t := le_roundNE t
  · have hst : s - (⌊s⌋ : ℚ) ≤ t - (⌊s⌋ : ℚ) := by linarith
    simp only [roundNE, ← heq]
    split <;> rename_i h1
    · -- s rounds down to its floor, which bounds roundNE t below
      have := le_roundNE t
      simp only [roundNE, ← heq] at this ⊢
      split <;> rename_i h1t
      · omega
      · split
        · omega
        · split <;> omega
    · split <;> rename_i h2
      · -- s - ⌊s⌋ > 1/2 hence also t - ⌊s⌋ > 1/2: both round up
        have h2t : 1/2 < t - (⌊s⌋ : ℚ) := lt_of_lt_of_le h2 hst
        rw [if_neg (by linarith), if_pos h2t]
      · -- tie for s
        have h3 : s - (⌊s⌋ : ℚ) = 1/2 := le_antisymm (not_lt.mp h2) (not_lt.mp h1)
        have h1t : ¬ (t - (⌊s⌋ : ℚ) < 1/2) := by push_neg; linarith
        rw [if_neg h1t]
        by_cases h2t : 1/2 < t - (⌊s⌋ : ℚ)
        · rw [if_pos h2t]; split <;> omega
        · rw [if_neg h2t]

theorem roundNE_natCast (n : ℕ) : roundNE (n : ℚ) = n := by
  have := roundNE_intCast (n : ℤ)
  push_cast at this
  exact_mod_cast this

theorem rndPos_bounds {q : ℚ} (hq : 0 < q) :
    (2:ℚ) ^ (Int.log 2 q) ≤ rndPos q ∧ rndPos q ≤ (2:ℚ) ^ (Int.log 2 q + 1) := by
  have h1 : (2:ℚ) ^ (Int.log 2 q) ≤ q := by
    have h := Int.zpow_log_le_self (one_lt_two) hq
    push_cast at h
    exact h
  have h2 : q < (2:ℚ) ^ (Int.log 2 q + 1) := by
    have h := Int.lt_zpow_succ_log_self (one_lt_two) q
    push_cast at h
    exact h
  set e := Int.log 2 q with he
  have hp : (0:ℚ) < 2 ^ ((52:ℤ) - e) := zpow_pos (by norm_num) _
  set s := q * 2 ^ ((52:ℤ) - e) with hs
  have hs1 : (2:ℚ) ^ (52:ℤ) ≤ s := by
    calc (2:ℚ) ^ (52:ℤ) = 2 ^ e * 2 ^ ((52:ℤ) - e) := by
          rw [← zpow_add₀ two_ne_zero]; congr 1; ring
      _ ≤ q * 2 ^ ((52:ℤ) - e) := mul_le_mul_of_nonneg_right h1 hp.le
  have hs2 : s < (2:ℚ) ^ (53:ℤ) := by
    calc s = q * 2 ^ ((52:ℤ) - e) := rfl
      _ < 2 ^ (e + 1) * 2 ^ ((52:ℤ) - e) := mul_lt_mul_of_pos_right h2 hp
      _ = (2:ℚ) ^ (53:ℤ) := by rw [← zpow_add₀ two_ne_zero]; congr 1; ring
  have hcast52 : ((2 ^ 52 : ℤ) : ℚ) = (2:ℚ) ^ (52:ℤ) := by norm_num
  have hcast53 : ((2 ^ 53 : ℤ) : ℚ) = (2:ℚ) ^ (53:ℤ) := by norm_num
  have hfl : (2:ℤ) ^ 52 ≤ ⌊s⌋ := by
    rw [Int.le_floor, hcast52]; exact hs1
  have hlo : ((2 ^ 52 : ℤ) : ℚ) ≤ (roundNE s : ℚ) := by
    exact_mod_cast le_trans hfl (le_roundNE s)
  have hhiZ : roundNE s ≤ 2 ^ 53 := by
    have hq1 : (roundNE s : ℚ) < ((2 ^ 53 + 1 : ℤ) : ℚ) := by
      have := roundNE_le_add_half s
      push_cast
      rw [← hcast53] at hs2
      push_cast at hs2
      linarith
    have h2 : roundNE s < 2 ^ 53 + 1 := by exact_mod_cast hq1
    omega
  have hhi : (roundNE s : ℚ) ≤ ((2 ^ 53 : ℤ) : ℚ) := by exact_mod_cast hhiZ
  have hnn : (0:ℚ) ≤ 2 ^ (e - (52:ℤ)) := zpow_nonneg (by norm_num) _
  constructor
  · calc (2:ℚ) ^ e = 2 ^ (52:ℤ) * 2 ^ (e - (52:ℤ)) := by
          rw [← zpow_add₀ two_ne_zero]; congr 1; ring
      _ ≤ (roundNE s : ℚ) * 2 ^ (e - (52:ℤ)) := by
          rw [← hcast52]; exact mul_le_mul_of_nonneg_right hlo hnn
      _ = rndPos q := by simp only [rndPos, ← he, ← hs]
  · calc rndPos q = (roundNE s : ℚ) * 2 ^ (e - (52:ℤ)) := by simp only [rndPos, ← he, ← hs]
      _ ≤ ((2 ^ 53 : ℤ) : ℚ) * 2 ^ (e - (52:ℤ)) := mul_le_mul_of_nonneg_right hhi hnn
      _ = (2:ℚ) ^ (e + 1) := by rw [hcast53, ← zpow_add₀ two_ne_zero]; congr 1; ring

theorem rndPos_mono {q r : ℚ} (hq : 0 < q) (h : q ≤ r) : rndPos q ≤ rndPos r := by
  have hr : 0 < r := lt_of_lt_of_le hq h
  have hle : Int.log 2 q ≤ Int.log 2 r := Int.log_mono_right hq h
  rcases eq_or_lt_of_le hle with heq | hlt
  · simp only [rndPos, ← heq]
    apply mul_le_mul_of_nonneg_right _ (zpow_nonneg (by norm_num) _)
    have hmul : q * 2 ^ ((52:ℤ) - Int.log 2 q) ≤ r * 2 ^ ((52:ℤ) - Int.log 2 q) :=
      mul_le_mul_of_nonneg_right h (zpow_nonneg (by norm_num) _)
    exact_mod_cast roundNE_mono hmul
  · calc rndPos q ≤ (2:ℚ) ^ (Int.log 2 q + 1) := (rndPos_bounds hq).2
      _ ≤ (2:ℚ) ^ (Int.log 2 r) := zpow_le_zpow_right₀ (by norm_num) (by omega)
      _ ≤ rndPos r := (rndPos_bounds hr).1

theorem rnd_zero : rnd 0 = 0 := by simp [rnd]

theorem rnd_pos_of_pos {q : ℚ} (hq : 0 < q) : 0 < rnd q := by
  rw [rnd, if_pos hq]
  exact lt_of_lt_of_le (zpow_pos (by norm_num) _) (rndPos_bounds hq).1

theorem rnd_nonneg {q : ℚ} (h : 0 ≤ q) : 0 ≤ rnd q := by
  rcases h.eq_or_lt with rfl | hq
  · rw [rnd_zero]
  · exact (rnd_pos_of_pos hq).le

theorem rnd_mono {q r : ℚ} (h0 : 0 ≤ q) (h : q ≤ r) : rnd q ≤ rnd r := by
  rcases h0.eq_or_lt with rfl | hq
  · rw [rnd_zero]
    exact rnd_nonneg (le_trans h0 h)
  · have hr : 0 < r := lt_of_lt_of_le hq h
    rw [rnd, if_pos hq, rnd, if_pos hr]
    exact rndPos_mono hq h

theorem rnd_natFix {n : ℕ} (h1 : 1 ≤ n) (h2 : n ≤ 2 ^ 53) : rnd (n : ℚ) = n := by
  have hq : (0:ℚ) < n := by exact_mod_cast h1
  rw [rnd, if_pos hq]
  have hlog : Int.log 2 ((n : ℚ)) = (Nat.log 2 n : ℤ) := Int.log_natCast 2 n
  set L := Nat.log 2 n with hL
  have hlb : 2 ^ L ≤ n := Nat.pow_log_le_self 2 (by omega)
  have hL53 : L ≤ 53 := by
    by_contra hc
    push_neg at hc
    have hstep : (2:ℕ) ^ 54 ≤ 2 ^ L := Nat.pow_le_pow_right (by norm_num) (by omega)
    have : (2:ℕ) ^ 54 ≤ 2 ^ 53 := le_trans hstep (le_trans hlb h2)
    norm_num at this
  rcases Nat.lt_or_ge L 53 with hc | hc
  · -- n fits in at most 53 bits: the scaled significand is an integer
    have hk : ((52:ℤ) - L) = ((52 - L : ℕ) : ℤ) := by omega
    simp only [rndPos, hlog]
    rw [hk, zpow_natCast]
    have hint : (n : ℚ) * (2:ℚ) ^ ((52 - L : ℕ)) = ((n * 2 ^ (52 - L) : ℕ) : ℚ) := by
      push_cast; ring
    rw [hint, roundNE_natCast]
    push_cast
    rw [mul_assoc, ← zpow_natCast (2:ℚ) (52 - L), ← zpow_add₀ two_ne_zero]
    rw [show (((52 - L : ℕ) : ℤ) + ((L : ℤ) - 52)) = 0 from by omega, zpow_zero, mul_one]
  · -- L = 53 forces n = 2 ^ 53
    have hstep : (2:ℕ) ^ 53 ≤ 2 ^ L := Nat.pow_le_pow_right (by norm_num) hc
    have hn : n = 2 ^ 53 := by omega
    subst hn
    simp only [rndPos, hlog]
    have hL' : L = 53 := le_antisymm hL53 hc
    rw [hL']
    have hint : ((2 ^ 53 : ℕ) : ℚ) * (2:ℚ) ^ ((52:ℤ) - ((53:ℕ) : ℤ)) = ((2 ^ 52 : ℤ) : ℚ) := by
      rw [show ((52:ℤ) - ((53:ℕ) : ℤ)) = (-1:ℤ) from by norm_num, zpow_neg, zpow_one]
      push_cast
      norm_num
    rw [hint, roundNE_intCast]
    rw [show (((53:ℕ) : ℤ) - 52) = (1:ℤ) from by norm_num, zpow_one]
    push_cast
    norm_num

theorem rnd_one : rnd 1 = 1 := by
  have := rnd_natFix (n := 1) (by norm_num) (by norm_num)
  simpa using this

/-- Evaluation helper: for a rational in the binade `[2^53, 2^54)` the rounded
value is twice the rounding of its half. -/
theorem rndPos_log53 (n : ℕ) (h : Nat.log 2 n = 53) :
    rndPos (n : ℚ) = (roundNE ((n : ℚ) / 2) : ℚ) * 2 := by
  simp only [rndPos, Int.log_natCast, h]
  rw [show ((52:ℤ) - (53:ℕ)) = (-1:ℤ) from by norm_num,
      show (((53:ℕ):ℤ) - 52) = (1:ℤ) from by norm_num,
      zpow_neg, zpow_one, ← div_eq_mul_inv]

theorem roundNE_eval_tie {f : ℤ} {s : ℚ} (hf : ⌊s⌋ = f) (ht : s - f = 1/2)
    (he : f % 2 = 0) : roundNE s = f := by
  simp [roundNE, hf, ht, he]

theorem roundNE_eval_tie_odd {f : ℤ} {s : ℚ} (hf : ⌊s⌋ = f) (ht : s - f = 1/2)
    (he : f % 2 = 1) : roundNE s = f + 1 := by
  simp [roundNE, hf, ht, he]

/-- The float nearest to `2^53 + 1` is `2^53` (round down on the tie). -/
theorem rnd_pow53_add_one : rnd ((2 ^ 53 + 1 : ℕ) : ℚ) = 2 ^ 53 := by
  have hq : (0:ℚ) < ((2 ^ 53 + 1 : ℕ) : ℚ) := by positivity
  rw [rnd, if_pos hq]
  rw [rndPos_log53 _ (Nat.log_eq_of_pow_le_of_lt_pow (by norm_num) (by norm_num))]
  have hf : ⌊((2 ^ 53 + 1 : ℕ) : ℚ) / 2⌋ = (2 ^ 52 : ℤ) := by
    rw [Int.floor_eq_iff]
    constructor
    · push_cast; norm_num
    · push_cast; norm_num
  rw [roundNE_eval_tie hf (by push_cast; norm_num) (by norm_num)]
  push_cast
  norm_num

/-- The float nearest to `2^53 + 3` is `2^53 + 4` (round up on the tie). -/
theorem rnd_pow53_add_three : rnd ((2 ^ 53 + 3 : ℕ) : ℚ) = 2 ^ 53 + 4 := by
  have hq : (0:ℚ) < ((2 ^ 53 + 3 : ℕ) : ℚ) := by positivity
  rw [rnd, if_pos hq]
  rw [rndPos_log53 _ (Nat.log_eq_of_pow_le_of_lt_pow (by norm_num) (by norm_num))]
  have hf : ⌊((2 ^ 53 + 3 : ℕ) : ℚ) / 2⌋ = (2 ^ 52 + 1 : ℤ) := by
    rw [Int.floor_eq_iff]
    constructor
    · push_cast; norm_num
    · push_cast; norm_num
  rw [roundNE_eval_tie_odd hf (by push_cast; norm_num) (by norm_num)]
  push_cast
  ring

/-- `2^53 + 4` is exactly representable, hence fixed by rounding. -/
theorem rnd_pow53_add_four : rnd ((2 ^ 53 + 4 : ℕ) : ℚ) = 2 ^ 53 + 4 := by
  have hq : (0:ℚ) < ((2 ^ 53 + 4 : ℕ) : ℚ) := by positivity
  rw [rnd, if_pos hq]
  rw [rndPos_log53 _ (Nat.log_eq_of_pow_le_of_lt_pow (by norm_num) (by norm_num))]
  have hs : ((2 ^ 53 + 4 : ℕ) : ℚ) / 2 = ((2 ^ 52 + 2 : ℤ) : ℚ) := by
    push_cast; ring
  rw [hs, roundNE_intCast]
  push_cast
  ring

/-- Model of the lambda `getpos` inside `get_copy_offsets`:
`int(float(pnum)/tprocs * fsize)`.  Every intermediate result is rounded to
binary64 (`rnd`); `int()` truncates, which on these nonnegative values is the
floor. -/
def getpos (pnum tprocs fsize : ℕ) : ℕ :=
  (⌊rnd (rnd (rnd (pnum : ℚ) / rnd (tprocs : ℚ)) * rnd (fsize : ℚ))⌋).toNat

/-- Model of `get_copy_offsets(proc_num, total_procs, filesize)`:
returns `(start_pos, end_pos, read_len)` with `read_len = end_pos - start_pos`
(the subtraction never truncates because the boundaries are monotone). -/
def get_copy_offsets (proc_num total_procs filesize : ℕ) : ℕ × ℕ × ℕ :=
  (getpos proc_num total_procs filesize,
   getpos (proc_num + 1) total_procs filesize,
   getpos (proc_num + 1) total_procs filesize - getpos proc_num total_procs filesize)

theorem getpos_zero (t f : ℕ) : getpos 0 t f = 0 := by
  simp [getpos, rnd_zero]

theorem getpos_mono {t f p q : ℕ} (h : p ≤ q) : getpos p t f ≤ getpos q t f := by
  unfold getpos
  have h1 : rnd (p:ℚ) ≤ rnd (q:ℚ) := rnd_mono (by positivity) (by exact_mod_cast h)
  have h1n : (0:ℚ) ≤ rnd (p:ℚ) := rnd_nonneg (by positivity)
  have htn : (0:ℚ) ≤ rnd (t:ℚ) := rnd_nonneg (by positivity)
  have h2 : rnd (p:ℚ) / rnd (t:ℚ) ≤ rnd (q:ℚ) / rnd (t:ℚ) :=
    div_le_div_of_nonneg_right h1 htn
  have h2n : (0:ℚ) ≤ rnd (p:ℚ) / rnd (t:ℚ) := div_nonneg h1n htn
  have h3 : rnd (rnd (p:ℚ) / rnd (t:ℚ)) ≤ rnd (rnd (q:ℚ) / rnd (t:ℚ)) := rnd_mono h2n h2
  have h3n : (0:ℚ) ≤ rnd (rnd (p:ℚ) / rnd (t:ℚ)) := rnd_nonneg h2n
  have hfn : (0:ℚ) ≤ rnd (f:ℚ) := rnd_nonneg (by positivity)
  have h4 := mul_le_mul_of_nonneg_right h3 hfn
  have h4n := mul_nonneg h3n hfn
  have h5 := rnd_mono h4n h4
  have h6 := Int.floor_le_floor h5
  omega

theorem getpos_last {t f : ℕ} (ht : 1 ≤ t) (hf : f ≤ 2 ^ 53) : getpos t t f = f := by
  unfold getpos
  have htp : (0:ℚ) < rnd (t:ℚ) := rnd_pos_of_pos (by exact_mod_cast ht)
  rw [div_self (ne_of_gt htp), rnd_one, one_mul]
  rcases Nat.eq_zero_or_pos f with rfl | hfp
  · simp [rnd_zero]
  · rw [rnd_natFix hfp hf, rnd_natFix hfp hf, Int.floor_natCast]
    omega

theorem getpos_le_size {t f p : ℕ} (ht : 1 ≤ t) (hf : f ≤ 2 ^ 53) (hp : p ≤ t) :
    getpos p t f ≤ f := by
  have h := getpos_mono (t := t) (f := f) hp
  rwa [getpos_last ht hf] at h

theorem rnd_collapse_one : rnd (rnd ((1:ℕ):ℚ) / rnd ((1:ℕ):ℚ)) = 1 := by
  simp [rnd_one]

/-- The planner's final boundary for a one-part copy of a `2^53 + 1` byte file
falls one byte short: `int(1.0 * float(2^53+1)) = 2^53`. -/
theorem getpos_one_one_big1 : getpos 1 1 (2 ^ 53 + 1) = 2 ^ 53 := by
  unfold getpos
  rw [rnd_collapse_one, one_mul, rnd_pow53_add_one]
  have h3 : rnd ((2:ℚ) ^ 53) = (2:ℚ) ^ 53 := by
    have h := rnd_natFix (n := 2 ^ 53) (by norm_num) (le_refl _)
    have hc : ((2 ^ 53 : ℕ) : ℚ) = (2:ℚ) ^ 53 := by push_cast; ring
    rwa [hc] at h
  rw [h3, show ((2:ℚ) ^ 53) = (((2 ^ 53 : ℕ)) : ℚ) from by push_cast; ring,
     Int.floor_natCast]
  omega

/-- The planner's final boundary for a one-part copy of a `2^53 + 3` byte file
overshoots the file size: `int(1.0 * float(2^53+3)) = 2^53 + 4`. -/
theorem getpos_one_one_big3 : getpos 1 1 (2 ^ 53 + 3) = 2 ^ 53 + 4 := by
  unfold getpos
  rw [rnd_collapse_one, one_mul, rnd_pow53_add_three]
  have h3 : rnd ((2:ℚ) ^ 53 + 4) = (2:ℚ) ^ 53 + 4 := by
    have h := rnd_pow53_add_four
    have hc : ((2 ^ 53 + 4 : ℕ) : ℚ) = (2:ℚ) ^ 53 + 4 := by push_cast; ring
    rwa [hc] at h
  rw [h3, show ((2:ℚ) ^ 53 + 4) = (((2 ^ 53 + 4 : ℕ)) : ℚ) from by push_cast; ring,
     Int.floor_natCast]
  omega

theorem offsets_big1 : get_copy_offsets 0 1 (2 ^ 53 + 1) = (0, 2 ^ 53, 2 ^ 53) := by
  unfold get_copy_offsets
  rw [getpos_zero, show (0 + 1) = 1 from rfl, getpos_one_one_big1]
  norm_num

theorem offsets_big3 : get_copy_offsets 0 1 (2 ^ 53 + 3) = (0, 2 ^ 53 + 4, 2 ^ 53 + 4) := by
  unfold get_copy_offsets
  rw [getpos_zero, show (0 + 1) = 1 from rfl, getpos_one_one_big3]
  norm_num

/-- Model of `in_fh.read(n)` on a file whose remaining content starts at
`pos`: Python returns the next `min(n, size - pos)` bytes and never raises at
end of file. -/
def fread (src : List ℕ) (pos n : ℕ) : List ℕ :=
  (src.drop pos).take n

/-- Model of the copy loop of `partial_copy` (lines 103-116): while
`bytes_read < read_len`, read a full 1 MiB block when more than a block
remains, otherwise read the remainder, append it to the output file and add
the REQUESTED count to `bytes_read` (the code adds `block_size` even when the
read returned fewer bytes).  Returns the list of chunks written and the final
`bytes_read` counter.  The pipe polling on lines 104-107 does not touch the
file data and is modelled separately by `workNext`. -/
def consFst (c : List ℕ) (r : List (List ℕ) × ℕ) : List (List ℕ) × ℕ :=
  (c :: r.1, r.2)

def copyLoop (src : List ℕ) (readLen pos bytesRead : ℕ) : List (List ℕ) × ℕ :=
  if _h : bytesRead < readLen then
    if _h2 : 1048576 < readLen - bytesRead then
      consFst (fread src pos 1048576)
        (copyLoop src readLen (pos + (fread src pos 1048576).length) (bytesRead + 1048576))
    else
      consFst (fread src pos (readLen - bytesRead))
        (copyLoop src readLen (pos + (fread src pos (readLen - bytesRead)).length)
          (bytesRead + (readLen - bytesRead)))
  else ([], bytesRead)
termination_by readLen - bytesRead
decreasing_by
  · omega
  · omega

/-- Model of `partial_copy(path_from, path_to, ...)` restricted to its file
effect: seek to `start`, then run the copy loop for `readLen` bytes.  The
worker's output file content is the concatenation `(copyWorker ...).1.flatten`
and the final loop counter is `(copyWorker ...).2`. -/
def copyWorker (src : List ℕ) (start readLen : ℕ) : List (List ℕ) × ℕ :=
  copyLoop src readLen start 0

theorem copyLoop_finished {src : List ℕ} {readLen pos bytesRead : ℕ}
    (h : readLen ≤ bytesRead) : copyLoop src readLen pos bytesRead = ([], bytesRead) := by
  rw [copyLoop]
  simp [Nat.not_lt.mpr h]

theorem consFst_fst (c : List ℕ) (r : List (List ℕ) × ℕ) : (consFst c r).1 = c :: r.1 := rfl

theorem consFst_snd (c : List ℕ) (r : List (List ℕ) × ℕ) : (consFst c r).2 = r.2 := rfl

theorem copyLoop_step_big {src : List ℕ} {readLen pos bytesRead : ℕ}
    (h : bytesRead < readLen) (h2 : 1048576 < readLen - bytesRead) :
    copyLoop src readLen pos bytesRead
      = consFst (fread src pos 1048576)
        (copyLoop src readLen (pos + (fread src pos 1048576).length)
          (bytesRead + 1048576)) := by
  rw [copyLoop, dif_pos h, dif_pos h2]

theorem copyLoop_step_small {src : List ℕ} {readLen pos bytesRead : ℕ}
    (h : bytesRead < readLen) (h2 : ¬ 1048576 < readLen - bytesRead) :
    copyLoop src readLen pos bytesRead
      = consFst (fread src pos (readLen - bytesRead))
        (copyLoop src readLen (pos + (fread src pos (readLen - bytesRead)).length)
          (bytesRead + (readLen - bytesRead))) := by
  rw [copyLoop, dif_pos h, dif_neg h2]

/-- Behaviour of the copy loop when every read is full (the whole planned
range lies inside the source): the chunks written concatenate to exactly the
planned byte range, the loop counter ends at `read_len`, every block is at
most 1 MiB and every block except the last is exactly 1 MiB. -/
theorem copyLoop_run (src : List ℕ) (readLen : ℕ) :
    ∀ n pos bytesRead, readLen - bytesRead = n →
      pos + n ≤ src.length →
      (copyLoop src readLen pos bytesRead).1.flatten = (src.drop pos).take n
      ∧ (copyLoop src readLen pos bytesRead).2 = max readLen bytesRead
      ∧ (∀ c ∈ (copyLoop src readLen pos bytesRead).1, c.length ≤ 1048576)
      ∧ (∀ c ∈ (copyLoop src readLen pos bytesRead).1.dropLast, c.length = 1048576)
      ∧ ((copyLoop src readLen pos bytesRead).1 = [] ↔ n = 0) := by
  intro n
  induction n using Nat.strong_induction_on with
  | _ n ih =>
    intro pos bytesRead hn hfit
    by_cases h : bytesRead < readLen
    · by_cases h2 : 1048576 < readLen - bytesRead
      · have hlen : (fread src pos 1048576).length = 1048576 := by
          simp only [fread, List.length_take, List.length_drop]
          omega
        have hstep := @copyLoop_step_big src readLen pos bytesRead h h2
        rw [hlen] at hstep
        rw [hstep]
        obtain ⟨ihf, ihb, ihle, ihdl, ihnil⟩ :=
          ih (readLen - (bytesRead + 1048576)) (by omega) (pos + 1048576)
            (bytesRead + 1048576) rfl (by omega)
        refine ⟨?_, ?_, ?_, ?_, ?_⟩
        · rw [consFst_fst, List.flatten_cons, ihf, fread, ← List.drop_drop,
            ← List.take_add,
            show 1048576 + (readLen - (bytesRead + 1048576)) = n from by omega]
        · rw [consFst_snd, ihb]
          omega
        · intro c hc
          rw [consFst_fst] at hc
          rcases List.mem_cons.mp hc with rfl | hc
          · exact le_of_eq hlen
          · exact ihle c hc
        · intro c hc
          rw [consFst_fst] at hc
          have hne : (copyLoop src readLen (pos + 1048576) (bytesRead + 1048576)).1 ≠ [] := by
            intro hnil
            have := ihnil.mp hnil
            omega
          rw [List.dropLast_cons_of_ne_nil hne] at hc
          rcases List.mem_cons.mp hc with rfl | hc
          · exact hlen
          · exact ihdl c hc
        · rw [consFst_fst]
          constructor
          · intro hnil
            exact absurd hnil (List.cons_ne_nil _ _)
          · intro hz
            exact absurd hz (by omega)
      · have hlen : (fread src pos (readLen - bytesRead)).length = readLen - bytesRead := by
          simp only [fread, List.length_take, List.length_drop]
          omega
        have hstep := @copyLoop_step_small src readLen pos bytesRead h h2
        rw [hlen,
          copyLoop_finished (by omega : readLen ≤ bytesRead + (readLen - bytesRead))]
          at hstep
        rw [hstep]
        refine ⟨?_, ?_, ?_, ?_, ?_⟩
        · rw [consFst_fst]
          simp only [List.flatten_cons, List.flatten_nil, List.append_nil, fread]
          rw [show readLen - bytesRead = n from hn]
        · rw [consFst_snd]
          omega
        · intro c hc
          rw [consFst_fst] at hc
          rcases List.mem_cons.mp hc with rfl | hc
          · rw [hlen]
            omega
          · simp at hc
        · intro c hc
          rw [consFst_fst] at hc
          simp at hc
        · rw [consFst_fst]
          constructor
          · intro hnil
            exact absurd hnil (List.cons_ne_nil _ _)
          · intro hz
            exact absurd hz (by omega)
    · rw [copyLoop_finished (Nat.not_lt.mp h)]
      have hz : n = 0 := by omega
      refine ⟨by simp [hz], by simp; omega, by simp, by simp, by simp [hz]⟩

/-- Under full reads the worker writes exactly the planned slice. -/
theorem copyWorker_run {src : List ℕ} {start readLen : ℕ}
    (hfit : start + readLen ≤ src.length) :
    (copyWorker src start readLen).1.flatten = (src.drop start).take readLen
    ∧ (copyWorker src start readLen).2 = readLen
    ∧ (∀ c ∈ (copyWorker src start readLen).1, c.length ≤ 1048576)
    ∧ (∀ c ∈ (copyWorker src start readLen).1.dropLast, c.length = 1048576)
    ∧ ((copyWorker src start readLen).1 = [] ↔ readLen = 0) := by
  obtain ⟨h1, h2, h3, h4, h5⟩ :=
    copyLoop_run src readLen readLen start 0 (by omega) (by omega)
  exact ⟨h1, by rw [copyWorker, h2]; omega, h3, h4, h5⟩

/-- One iteration of the merge loop body (lines 84-88): append the content of
partition file `j+1` to the accumulated output, failing (`none`) if that file
is missing, and propagating an earlier failure. -/
def mergeStep (fs : ℕ → Option (List ℕ)) (acc : Option (List ℕ)) (j : ℕ) :
    Option (List ℕ) :=
  acc.bind fun out => (fs (j + 1)).map fun c => out ++ c

/-- Model of `merge_files(dest_file, parts)`.  `fs i` is the content of the
partition file `dest.i` (`none` when missing).  Opening `dest.0` with mode
`ab` appends to whatever content exists and silently creates an empty file
when `dest.0` is missing — hence `(fs 0).getD []`.  The loop runs over
`range(1, parts)`; a missing or unreadable file raises `IOError`, modelled by
`none`, in which case the final `os.rename` on line 91 is never executed.  A
`some` result is the content the destination file holds after the rename. -/
def merge_files (fs : ℕ → Option (List ℕ)) (parts : ℤ) : Option (List ℕ) :=
  (List.range (parts - 1).toNat).foldl (mergeStep fs) (some ((fs 0).getD []))

/-- Model of a `Child` handle: the coordinator's cached progress counter and
the planned slice length passed to the constructor. -/
structure Child where
  bytes_copied : ℕ
  bytes_to_copy : ℕ
  deriving DecidableEq

/-- Model of `Child.update` (lines 142-148).  `alive` is the result of
`proc.is_alive()`; `rep` is the queue of REPORT payloads waiting on the
coordinator's pipe end.  Returns the updated handle, the remaining REPORT
queue, and the number of REQUEST messages sent (the alive branch always sends
exactly one, the dead branch none). -/
def Child.update (c : Child) (alive : Bool) (rep : List ℕ) : Child × List ℕ × ℕ :=
  if alive then (⟨rep.headD c.bytes_copied, c.bytes_to_copy⟩, rep.tail, 1)
  else (⟨c.bytes_to_copy, c.bytes_to_copy⟩, rep, 0)

/-- Model of `spawn_children` (lines 51-59): one `Child` per index in
`range(0, parts)` — empty for `parts <= 0` — holding `bytes_copied = 0` and
the planned length `get_copy_offsets(i, parts, source_size)[2]`. -/
def spawn_children (parts : ℤ) (source_size : ℕ) : List Child :=
  (List.range parts.toNat).map
    (fun i => ⟨0, (get_copy_offsets i parts.toNat source_size).2.2⟩)

/-- Partition file contents after all workers have finished: worker `i`
created `dest.i` containing what its copy loop wrote; indices outside
`range(0, parts)` have no file. -/
def childFS (src : List ℕ) (parts : ℤ) : ℕ → Option (List ℕ) :=
  fun i =>
    if i < parts.toNat then
      some ((copyWorker src (get_copy_offsets i parts.toNat src.length).1
        (get_copy_offsets i parts.toNat src.length).2.2).1.flatten)
    else none

/-- Model of `main`'s file effect: spawn the workers, let each write its
partition file, then merge.  The result is the destination file content, or
`none` when the merge raised and no destination was produced. -/
def main (src : List ℕ) (parts : ℤ) : Option (List ℕ) :=
  merge_files (childFS src parts) parts

theorem offsets_fst (i t f : ℕ) : (get_copy_offsets i t f).1 = getpos i t f := rfl

theorem offsets_len (i t f : ℕ) :
    (get_copy_offsets i t f).2.2 = getpos (i + 1) t f - getpos i t f := rfl

theorem mergeStep_none (fs : ℕ → Option (List ℕ)) (l : List ℕ) :
    l.foldl (mergeStep fs) none = none := by
  induction l with
  | nil => rfl
  | cons a t ihl =>
    rw [List.foldl_cons]
    exact ihl

theorem merge_hits_none (fs : ℕ → Option (List ℕ)) :
    ∀ (l : List ℕ) (acc : Option (List ℕ)) (j : ℕ), j ∈ l → fs (j + 1) = none →
      l.foldl (mergeStep fs) acc = none := by
  intro l
  induction l with
  | nil =>
    intro acc j hj
    exact absurd hj (List.not_mem_nil j)
  | cons a t ihl =>
    intro acc j hj hnone
    rw [List.foldl_cons]
    rcases List.mem_cons.mp hj with rfl | hj2
    · have hz : mergeStep fs acc j = none := by
        unfold mergeStep
        rw [hnone]
        cases acc <;> rfl
      rw [hz, mergeStep_none]
    · exact ihl _ j hj2 hnone

theorem merge_all_some (fs : ℕ → Option (List ℕ)) (g : ℕ → List ℕ) :
    ∀ (l : List ℕ) (acc : List ℕ),
      (∀ j ∈ l, fs (j + 1) = some (g (j + 1))) →
      l.foldl (mergeStep fs) (some acc)
        = some (acc ++ (l.map (fun j => g (j + 1))).flatten) := by
  intro l
  induction l with
  | nil =>
    intro acc _
    simp
  | cons a t ihl =>
    intro acc hall
    rw [List.foldl_cons]
    have hstep : mergeStep fs (some acc) a = some (acc ++ g (a + 1)) := by
      unfold mergeStep
      rw [hall a (List.mem_cons_self a t)]
      rfl
    rw [hstep, ihl _ (fun j hj => hall j (List.mem_cons_of_mem a hj))]
    simp [List.append_assoc]

/-- A missing partition file with index in `1..parts-1` makes the merge fail
before the final rename. -/
theorem merge_files_missing {fs : ℕ → Option (List ℕ)} {N i : ℕ}
    (h1 : 1 ≤ i) (hiN : i < N) (hnone : fs i = none) :
    merge_files fs (N : ℤ) = none := by
  unfold merge_files
  rw [show ((N:ℤ) - 1).toNat = N - 1 from by omega]
  apply merge_hits_none fs _ _ (i - 1) (List.mem_range.mpr (by omega))
  rw [show i - 1 + 1 = i from by omega]
  exact hnone

/-- When every partition file `0..N-1` is present, the merge output is their
concatenation in ascending index order. -/
theorem merge_files_all_some {fs : ℕ → Option (List ℕ)} {g : ℕ → List ℕ} {N : ℕ}
    (hN : 1 ≤ N) (hall : ∀ i, i < N → fs i = some (g i)) :
    merge_files fs (N : ℤ) = some (((List.range N).map g).flatten) := by
  unfold merge_files
  rw [show ((N:ℤ) - 1).toNat = N - 1 from by omega]
  rw [hall 0 (by omega), Option.getD_some]
  rw [merge_all_some fs g _ _
    (fun j hj => hall (j + 1) (by have := List.mem_range.mp hj; omega))]
  congr 1
  conv_rhs => rw [show N = (N - 1) + 1 from by omega, List.range_succ_eq_map]
  rw [List.map_cons, List.flatten_cons, List.map_map]
  rfl

/-- Concatenating the half-open slices cut at monotone boundaries `b`
reassembles the contiguous range from `b a` to `b (a + k)`. -/
theorem flatten_slices (src : List ℕ) (b : ℕ → ℕ)
    (hb : ∀ i j, i ≤ j → b i ≤ b j) :
    ∀ (k a : ℕ),
      ((List.range k).map
        (fun j => (src.drop (b (a + j))).take (b (a + j + 1) - b (a + j)))).flatten
      = (src.drop (b a)).take (b (a + k) - b a) := by
  intro k
  induction k with
  | zero =>
    intro a
    simp
  | succ k ihk =>
    intro a
    rw [List.range_succ_eq_map, List.map_cons, List.flatten_cons, List.map_map]
    have heq : ((fun j => (src.drop (b (a + j))).take (b (a + j + 1) - b (a + j)))
          ∘ Nat.succ)
        = fun j => (src.drop (b (a + 1 + j))).take (b (a + 1 + j + 1) - b (a + 1 + j)) := by
      funext j
      simp only [Function.comp_apply]
      rw [show a + Nat.succ j = a + 1 + j from by omega]
    rw [heq, ihk (a + 1)]
    simp only [Nat.add_zero]
    rw [show a + (k + 1) = a + 1 + k from by omega]
    have h1 : b a ≤ b (a + 1) := hb a (a + 1) (by omega)
    have h2 : b (a + 1) ≤ b (a + 1 + k) := hb (a + 1) (a + 1 + k) (by omega)
    have key : src.drop (b (a + 1)) = (src.drop (b a)).drop (b (a + 1) - b a) := by
      rw [List.drop_drop, show b a + (b (a + 1) - b a) = b (a + 1) from by omega]
    rw [key, ← List.take_add,
      show b (a + 1) - b a + (b (a + 1 + k) - b (a + 1)) = b (a + 1 + k) - b a
        from by omega]

/-- Round trip of the whole pipeline for any source of at most `2^53` bytes:
every worker writes its planned slice, the merge concatenates the slices in
index order, and the destination equals the source byte for byte. -/
theorem main_roundtrip (src : List ℕ) (N : ℕ) (hN : 1 ≤ N)
    (hf : src.length ≤ 2 ^ 53) : main src (N : ℤ) = some src := by
  have hmono : ∀ i j, i ≤ j → getpos i N src.length ≤ getpos j N src.length :=
    fun i j hij => getpos_mono hij
  have hlast : getpos N N src.length = src.length := getpos_last hN hf
  have hchild : ∀ i, i < N → childFS src (N : ℤ) i
      = some ((src.drop (getpos i N src.length)).take
          (getpos (i + 1) N src.length - getpos i N src.length)) := by
    intro i hi
    unfold childFS
    rw [Int.toNat_natCast, if_pos hi, offsets_fst, offsets_len]
    have hfit : getpos i N src.length
        + (getpos (i + 1) N src.length - getpos i N src.length) ≤ src.length := by
      have hx := hmono i (i + 1) (by omega)
      have hy := hmono (i + 1) N (by omega)
      omega
    rw [(copyWorker_run hfit).1]
  rw [main, merge_files_all_some hN hchild]
  have hflat := flatten_slices src (fun i => getpos i N src.length) hmono N 0
  simp only [Nat.zero_add] at hflat
  rw [hflat, getpos_zero, hlast, Nat.sub_zero, List.drop_zero, List.take_length]

/-- Joint state of one worker's ProgressChannel, the worker's loop counter
and the coordinator's cached progress for that worker.  `req` counts REQUEST
messages queued on the parent-to-child pipe direction, `rep` is the FIFO of
REPORT payloads queued child-to-parent, `bytesRead` is the worker's local
`bytes_read`, and `cache` is the coordinator's `Child.bytes_copied`. -/
structure PState where
  req : ℕ
  rep : List ℕ
  bytesRead : ℕ
  cache : ℕ
  deriving DecidableEq

/-- One coordinator tick for this worker, built on `Child.update`.  The
worker process is alive exactly while its loop has not finished
(`bytesRead < readLen`); when alive the coordinator consumes at most one
queued REPORT and always sends one REQUEST, when dead it touches nothing and
sets the cache to the full planned length. -/
def tickNext (readLen : ℕ) (s : PState) : PState :=
  ⟨s.req + (Child.update ⟨s.cache, readLen⟩ (decide (s.bytesRead < readLen)) s.rep).2.2,
   (Child.update ⟨s.cache, readLen⟩ (decide (s.bytesRead < readLen)) s.rep).2.1,
   s.bytesRead,
   (Child.update ⟨s.cache, readLen⟩ (decide (s.bytesRead < readLen)) s.rep).1.bytes_copied⟩

/-- One iteration of the worker's loop, seen at the protocol level (lines
103-116 of `partial_copy`): a non-blocking poll answers at most one pending
REQUEST with a REPORT carrying the current `bytes_read`, then one block is
copied, advancing `bytes_read` by a full block or by the remainder. -/
def workNext (readLen : ℕ) (s : PState) : PState :=
  ⟨(if 0 < s.req then s.req - 1 else s.req),
   (if 0 < s.req then s.rep ++ [s.bytesRead] else s.rep),
   s.bytesRead +
     (if 1048576 < readLen - s.bytesRead then 1048576 else readLen - s.bytesRead),
   s.cache⟩

/-- Interleaving semantics: at any moment either the coordinator runs one
tick for this worker, or the worker (while its loop is unfinished) runs one
loop iteration. -/
inductive Step (readLen : ℕ) : PState → PState → Prop
  | tick (s : PState) : Step readLen s (tickNext readLen s)
  | work (s : PState) (h : s.bytesRead < readLen) : Step readLen s (workNext readLen s)

/-- State at spawn time: empty pipes, nothing copied, cache zero. -/
def startState : PState := ⟨0, [], 0, 0⟩

/-- States reachable in some interleaving of coordinator ticks and worker
iterations. -/
def Reachable (readLen : ℕ) (s : PState) : Prop :=
  Relation.ReflTransGen (Step readLen) startState s

/-- Invariant of the protocol: queued REPORT payloads are nondecreasing, each
is at most the worker's current counter and strictly below the planned
length; the counter never exceeds the planned length; the cache never exceeds
the planned length; and while the worker is alive the cache lags both the
counter and every queued REPORT. -/
def Inv (readLen : ℕ) (s : PState) : Prop :=
  s.rep.Pairwise (· ≤ ·)
  ∧ (∀ x ∈ s.rep, x ≤ s.bytesRead ∧ x < readLen)
  ∧ s.bytesRead ≤ readLen
  ∧ s.cache ≤ readLen
  ∧ (s.bytesRead < readLen → s.cache ≤ s.bytesRead ∧ ∀ x ∈ s.rep, s.cache ≤ x)

theorem tickNext_alive {readLen : ℕ} {s : PState} (hal : s.bytesRead < readLen) :
    tickNext readLen s = ⟨s.req + 1, s.rep.tail, s.bytesRead, s.rep.headD s.cache⟩ := by
  rw [tickNext, Child.update]
  simp [hal]

theorem tickNext_dead {readLen : ℕ} {s : PState} (hal : ¬ s.bytesRead < readLen) :
    tickNext readLen s = ⟨s.req, s.rep, s.bytesRead, readLen⟩ := by
  rw [tickNext, Child.update]
  simp [hal]

theorem workNext_req {readLen : ℕ} {s : PState} (hr : 0 < s.req) :
    workNext readLen s
      = ⟨s.req - 1, s.rep ++ [s.bytesRead],
         s.bytesRead
           + (if 1048576 < readLen - s.bytesRead then 1048576
              else readLen - s.bytesRead),
         s.cache⟩ := by
  rw [workNext]
  simp [hr]

theorem workNext_noreq {readLen : ℕ} {s : PState} (hr : ¬ 0 < s.req) :
    workNext readLen s
      = ⟨s.req, s.rep,
         s.bytesRead
           + (if 1048576 < readLen - s.bytesRead then 1048576
              else readLen - s.bytesRead),
         s.cache⟩ := by
  rw [workNext]
  simp [hr]

theorem inv_start (readLen : ℕ) : Inv readLen startState := by
  refine ⟨List.Pairwise.nil, ?_, ?_, ?_, ?_⟩ <;> simp [startState]

theorem inv_step {readLen : ℕ} {s t : PState} (hInv : Inv readLen s)
    (hst : Step readLen s t) : Inv readLen t := by
  obtain ⟨hpw, hmem, hbr, hca, halive⟩ := hInv
  cases hst with
  | tick =>
    by_cases hal : s.bytesRead < readLen
    · rw [tickNext_alive hal]
      cases hrep : s.rep with
      | nil =>
        refine ⟨by simp, by simp, hbr, hca, fun hl => ⟨(halive hl).1, by simp⟩⟩
      | cons a l =>
        have hpw2 := hrep ▸ hpw
        have hmem2 := hrep ▸ hmem
        have hal2 := halive hal
        refine ⟨?_, ?_, hbr, ?_, ?_⟩
        · simp only [List.tail_cons]
          exact (List.pairwise_cons.mp hpw2).2
        · intro x hx
          simp only [List.tail_cons] at hx
          exact hmem2 x (List.mem_cons_of_mem a hx)
        · simp only [List.headD_cons]
          exact le_of_lt (hmem2 a (List.mem_cons_self a l)).2
        · intro hl
          simp only [List.headD_cons, List.tail_cons]
          exact ⟨(hmem2 a (List.mem_cons_self a l)).1,
            fun x hx => (List.pairwise_cons.mp hpw2).1 x hx⟩
    · rw [tickNext_dead hal]
      exact ⟨hpw, hmem, hbr, le_refl readLen, fun hl => absurd hl hal⟩
  | work hw =>
    have hinc : (if 1048576 < readLen - s.bytesRead then 1048576
        else readLen - s.bytesRead) ≤ readLen - s.bytesRead := by
      split <;> omega
    have hal2 := halive hw
    by_cases hr : 0 < s.req
    · rw [workNext_req hr]
      refine ⟨?_, ?_, by simp; omega, hca, ?_⟩
      · simp only
        rw [List.pairwise_append]
        refine ⟨hpw, List.pairwise_singleton _ _, ?_⟩
        intro x hx y hy
        rw [List.mem_singleton] at hy
        subst hy
        exact (hmem x hx).1
      · intro x hx
        simp only [List.mem_append] at hx
        rcases hx with hx1 | hx1
        · exact ⟨le_trans (hmem x hx1).1 (by simp), (hmem x hx1).2⟩
        · rw [List.mem_singleton] at hx1
          subst hx1
          exact ⟨by simp, hw⟩
      · intro hl
        refine ⟨le_trans hal2.1 (by simp), ?_⟩
        intro x hx
        simp only [List.mem_append] at hx
        rcases hx with hx1 | hx1
        · exact hal2.2 x hx1
        · rw [List.mem_singleton] at hx1
          subst hx1
          exact hal2.1
    · rw [workNext_noreq hr]
      refine ⟨hpw, ?_, by simp; omega, hca, ?_⟩
      · intro x hx
        exact ⟨le_trans (hmem x hx).1 (by simp), (hmem x hx).2⟩
      · intro hl
        exact ⟨le_trans hal2.1 (by simp), hal2.2⟩

theorem inv_reachable {readLen : ℕ} {s : PState} (h : Reachable readLen s) :
    Inv readLen s := by
  induction h with
  | refl => exact inv_start readLen
  | tail hr hst ih => exact inv_step ih hst

/-- The coordinator's cached counter never decreases across a step. -/
theorem cache_mono {readLen : ℕ} {s t : PState} (hInv : Inv readLen s)
    (hst : Step readLen s t) : s.cache ≤ t.cache := by
  obtain ⟨hpw, hmem, hbr, hca, halive⟩ := hInv
  cases hst with
  | tick =>
    by_cases hal : s.bytesRead < readLen
    · rw [tickNext_alive hal]
      cases hrep : s.rep with
      | nil => simp
      | cons a l =>
        simp only [List.headD_cons]
        exact (halive hal).2 a (hrep ▸ List.mem_cons_self a l)
    · rw [tickNext_dead hal]
      exact hca
  | work hw =>
    rw [workNext]

/-- New REPORT payloads appearing in a step carry a value strictly below the
planned length. -/
theorem step_new_reports {readLen : ℕ} {s t : PState} (hst : Step readLen s t) :
    ∀ x ∈ t.rep, x ∈ s.rep ∨ x < readLen := by
  cases hst with
  | tick =>
    intro x hx
    left
    by_cases hal : s.bytesRead < readLen
    · rw [tickNext_alive hal] at hx
      exact List.mem_of_mem_tail hx
    · rw [tickNext_dead hal] at hx
      exact hx
  | work hw =>
    intro x hx
    by_cases hr : 0 < s.req
    · rw [workNext_req hr] at hx
      simp only [List.mem_append] at hx
      rcases hx with hx1 | hx1
      · exact Or.inl hx1
      · rw [List.mem_singleton] at hx1
        exact Or.inr (hx1 ▸ hw)
    · rw [workNext_noreq hr] at hx
      exact Or.inl hx

/-- C2: the planner's ranges are contiguous and non-overlapping, but the
final boundary does not always equal the file size: for
`fileSize = 2^53 + 1` and `partCount = 1` the code computes
`int(1.0 * float(2^53+1)) = 2^53`, so the single range is
`[0, 2^53)` of length `2^53`, not `fileSize` — evaluating `get_copy_offsets`
at the failing input. -/
theorem c2_planner_eval :
    get_copy_offsets 0 1 (2 ^ 53 + 1) = (0, 2 ^ 53, 2 ^ 53)
    ∧ (get_copy_offsets 0 1 (2 ^ 53 + 1)).2.1 ≠ 2 ^ 53 + 1 := by
  refine ⟨offsets_big1, ?_⟩
  rw [offsets_big1]
  norm_num

/-- C1 (counterexample): for a source of `2^53 + 1` bytes and one worker, the
pipeline's destination is not byte-for-byte identical to the source — the
float-computed final boundary truncates to `2^53` and the last byte is
lost. -/
theorem c1_counterexample :
    main (List.replicate (2 ^ 53 + 1) 0) 1 ≠ some (List.replicate (2 ^ 53 + 1) 0) := by
  have hlen : (List.replicate (2 ^ 53 + 1) (0:ℕ)).length = 2 ^ 53 + 1 :=
    List.length_replicate _ _
  have hchild : childFS (List.replicate (2 ^ 53 + 1) 0) (1 : ℤ) 0
      = some (List.replicate (2 ^ 53) 0) := by
    unfold childFS
    rw [if_pos (show 0 < (1:ℤ).toNat from by decide),
      show (1:ℤ).toNat = 1 from rfl, hlen, offsets_fst, offsets_len, getpos_zero,
      show (0 + 1) = 1 from rfl, getpos_one_one_big1, Nat.sub_zero]
    rw [(copyWorker_run (show (0:ℕ) + 2 ^ 53
      ≤ (List.replicate (2 ^ 53 + 1) (0:ℕ)).length from by rw [hlen]; omega)).1]
    rw [List.drop_zero, List.take_replicate]
    norm_num
  have hmain : main (List.replicate (2 ^ 53 + 1) 0) 1 = some (List.replicate (2 ^ 53) 0) := by
    rw [main]
    unfold merge_files
    rw [show ((1:ℤ) - 1).toNat = 0 from rfl, show List.range 0 = [] from rfl,
      List.foldl_nil, hchild, Option.getD_some]
  rw [hmain]
  intro hEq
  have hl := congrArg (fun o => (Option.getD o []).length) hEq
  norm_num [List.length_replicate] at hl

/-- C1 (amended): round trip holds for every source whose size is at most
`2^53` bytes (the range in which binary64 represents the size exactly) and
every `partCount ≥ 1`: each worker copies its planned range, the merge
appends partition outputs in ascending index order, and the destination
equals the source. -/
theorem c1_roundtrip (src : List ℕ) (N : ℕ) (hN : 1 ≤ N)
    (hf : src.length ≤ 2 ^ 53) : main src (N : ℤ) = some src :=
  main_roundtrip src N hN hf

theorem c1_roundtrip_witness :
    1 ≤ 2 ∧ [5, 6, 7].length ≤ 2 ^ 53 ∧ main [5, 6, 7] ((2:ℕ) : ℤ) = some [5, 6, 7] :=
  ⟨by norm_num, by norm_num, c1_roundtrip [5, 6, 7] 2 (by norm_num) (by norm_num)⟩

/-- C3: assuming full reads (the planned range lies inside the source), the
worker writes exactly `L` bytes — never more, never fewer — in 1 MiB blocks
with only the final block possibly shorter, its loop counter terminates at
`L`, and a zero-length partition writes nothing. -/
theorem c3_worker_exact (src : List ℕ) (start L : ℕ) (hfit : start + L ≤ src.length) :
    (copyWorker src start L).1.flatten.length = L
    ∧ (copyWorker src start L).2 = L
    ∧ (∀ c ∈ (copyWorker src start L).1, c.length ≤ 1048576)
    ∧ (∀ c ∈ (copyWorker src start L).1.dropLast, c.length = 1048576)
    ∧ (L = 0 → (copyWorker src start L).1 = []) := by
  obtain ⟨h1, h2, h3, h4, h5⟩ := copyWorker_run hfit
  refine ⟨?_, h2, h3, h4, fun hz => h5.mpr hz⟩
  rw [h1, List.length_take, List.length_drop]
  omega

theorem c3_witness :
    0 + 3 ≤ [1, 2, 3].length
    ∧ ((copyWorker [1, 2, 3] 0 3).1.flatten.length = 3
      ∧ (copyWorker [1, 2, 3] 0 3).2 = 3
      ∧ (∀ c ∈ (copyWorker [1, 2, 3] 0 3).1, c.length ≤ 1048576)
      ∧ (∀ c ∈ (copyWorker [1, 2, 3] 0 3).1.dropLast, c.length = 1048576)
      ∧ (3 = 0 → (copyWorker [1, 2, 3] 0 3).1 = [])) :=
  ⟨by decide, c3_worker_exact [1, 2, 3] 0 3 (by decide)⟩

/-- C4: a read that returns fewer bytes than requested is NOT fatal: with an
empty source and a planned length of one byte, the loop performs one short
read, writes nothing, still counts a full byte as copied, and terminates
normally exactly as if it had succeeded. -/
theorem c4_short_read_eval :
    (copyWorker [] 0 1).2 = 1 ∧ (copyWorker [] 0 1).1.flatten.length = 0 := by
  rw [copyWorker,
    copyLoop_step_small (show (0:ℕ) < 1 from by norm_num)
      (show ¬ 1048576 < 1 - 0 from by norm_num),
    copyLoop_finished (show (1:ℕ) ≤ 0 + (1 - 0) from by norm_num)]
  exact ⟨rfl, rfl⟩

/-- C5 (counterexample): a missing partition file 0 does not make the merge
fail — append-mode open silently creates it empty, the loop has nothing else
to do for `parts = 1`, and the rename produces an empty destination. -/
theorem c5_counterexample :
    merge_files (fun _ : ℕ => (none : Option (List ℕ))) (1 : ℤ) = some [] := rfl

/-- C5 (amended): a missing partition file with index in `1..N-1` makes
`merge_files` raise and the final rename is not performed (no destination
content is produced); only a missing partition file 0 escapes detection. -/
theorem c5_merge_missing (fs : ℕ → Option (List ℕ)) (N i : ℕ) (h1 : 1 ≤ i)
    (hiN : i < N) (hnone : fs i = none) : merge_files fs (N : ℤ) = none :=
  merge_files_missing h1 hiN hnone

theorem c5_witness :
    1 ≤ 1 ∧ 1 < 2
    ∧ (fun j => if j = 1 then none else some ([] : List ℕ)) 1 = none
    ∧ merge_files (fun j => if j = 1 then none else some ([] : List ℕ)) ((2:ℕ) : ℤ)
        = none :=
  ⟨le_refl 1, by norm_num, by norm_num,
    c5_merge_missing _ 2 1 (le_refl 1) (by norm_num) (by norm_num)⟩

/-- C6: a non-positive part count does not fail fast: `range(0, parts)` is
empty so no worker spawns and no partition file is written, yet the merge
still runs, creates `dest.0` empty via append-mode open, and renames it onto
the destination — the program exits successfully with an empty destination
file. -/
theorem c6_nonpositive_parts_eval :
    spawn_children 0 5 = [] ∧ spawn_children (-3) 5 = []
    ∧ main [1, 2, 3] 0 = some [] ∧ main [1, 2, 3] (-3) = some [] :=
  ⟨rfl, rfl, rfl, rfl⟩

/-- C7 (counterexample): two coordinator ticks with no intervening worker
iteration are a legal interleaving and leave two unanswered REQUEST messages
queued — the coordinator sends a REQUEST every tick whether or not the
previous one was answered. -/
theorem c7_counterexample :
    Reachable 2 ⟨2, [], 0, 0⟩ ∧ 1 < (⟨2, [], 0, 0⟩ : PState).req := by
  constructor
  · have s1 : Step 2 startState (⟨1, [], 0, 0⟩ : PState) := Step.tick startState
    have s2 : Step 2 (⟨1, [], 0, 0⟩ : PState) (⟨2, [], 0, 0⟩ : PState) :=
      Step.tick (⟨1, [], 0, 0⟩ : PState)
    exact Relation.ReflTransGen.tail (Relation.ReflTransGen.single s1) s2
  · norm_num

/-- C7 (amended): per step at most one REQUEST is added (and only while the
worker is alive) and at most one is consumed; multiple REQUESTs may
nevertheless be outstanding across ticks. -/
theorem c7_amended (readLen : ℕ) (s t : PState) (hst : Step readLen s t) :
    t.req ≤ s.req + 1 ∧ s.req ≤ t.req + 1
    ∧ (s.req + 1 = t.req → s.bytesRead < readLen) := by
  cases hst with
  | tick =>
    by_cases hal : s.bytesRead < readLen
    · rw [tickNext_alive hal]
      exact ⟨show s.req + 1 ≤ s.req + 1 from by omega,
        show s.req ≤ s.req + 1 + 1 from by omega, fun _ => hal⟩
    · rw [tickNext_dead hal]
      exact ⟨show s.req ≤ s.req + 1 from by omega,
        show s.req ≤ s.req + 1 from by omega,
        fun heq => absurd (show s.req + 1 = s.req from heq) (by omega)⟩
  | work hw =>
    by_cases hr : 0 < s.req
    · rw [workNext_req hr]
      exact ⟨show s.req - 1 ≤ s.req + 1 from by omega,
        show s.req ≤ s.req - 1 + 1 from by omega,
        fun heq => absurd (show s.req + 1 = s.req - 1 from heq) (by omega)⟩
    · rw [workNext_noreq hr]
      exact ⟨show s.req ≤ s.req + 1 from by omega,
        show s.req ≤ s.req + 1 from by omega,
        fun heq => absurd (show s.req + 1 = s.req from heq) (by omega)⟩

theorem c7_witness :
    (⟨1, [], 0, 0⟩ : PState).req ≤ startState.req + 1
    ∧ startState.req ≤ (⟨1, [], 0, 0⟩ : PState).req + 1
    ∧ (startState.req + 1 = (⟨1, [], 0, 0⟩ : PState).req → startState.bytesRead < 2) :=
  c7_amended 2 startState ⟨1, [], 0, 0⟩
    (show Step 2 startState ⟨1, [], 0, 0⟩ from Step.tick startState)

/-- C8: when the coordinator observes a dead worker, `Child.update` sets the
cached `bytes_copied` to the full planned `bytes_to_copy`, irrespective of
the previous cache value and of any queued REPORT, touching no pipe and
sending no REQUEST. -/
theorem c8_completion_by_exit (c : Child) (rep : List ℕ) :
    Child.update c false rep = (⟨c.bytes_to_copy, c.bytes_to_copy⟩, rep, 0) := rfl

/-- C9: in every loop iteration the worker's step is enabled regardless of
whether a REQUEST is pending (the poll never blocks the copy), it sends at
most one REPORT, sends none when no REQUEST is pending, and answers exactly
one pending REQUEST with a REPORT carrying its current counter. -/
theorem c9_worker_protocol (readLen : ℕ) (s : PState) (hw : s.bytesRead < readLen) :
    Step readLen s (workNext readLen s)
    ∧ (workNext readLen s).rep.length ≤ s.rep.length + 1
    ∧ (s.req = 0 → (workNext readLen s).rep = s.rep ∧ (workNext readLen s).req = s.req)
    ∧ (0 < s.req → (workNext readLen s).rep = s.rep ++ [s.bytesRead]
        ∧ (workNext readLen s).req = s.req - 1) := by
  refine ⟨Step.work s hw, ?_, ?_, ?_⟩
  · by_cases hr : 0 < s.req
    · rw [workNext_req hr]
      simp
    · rw [workNext_noreq hr]
      simp
  · intro hz
    rw [workNext_noreq (by omega)]
    exact ⟨rfl, rfl⟩
  · intro hr
    rw [workNext_req hr]
    exact ⟨rfl, rfl⟩

theorem c9_witness :
    startState.bytesRead < 2
    ∧ (Step 2 startState (workNext 2 startState)
      ∧ (workNext 2 startState).rep.length ≤ startState.rep.length + 1
      ∧ (startState.req = 0 → (workNext 2 startState).rep = startState.rep
          ∧ (workNext 2 startState).req = startState.req)
      ∧ (0 < startState.req → (workNext 2 startState).rep
            = startState.rep ++ [startState.bytesRead]
          ∧ (workNext 2 startState).req = startState.req - 1)) :=
  ⟨by decide, c9_worker_protocol 2 startState (by decide)⟩

/-- C10 (counterexample): for a `2^53 + 3` byte file copied with one worker
the planned length rounds up to `2^53 + 4`, so once the worker exits the
coordinator's cache — and hence the aggregated sum shown on the progress
display — exceeds the source file size. -/
theorem c10_counterexample :
    2 ^ 53 + 3
      < (Child.update ⟨0, (get_copy_offsets 0 1 (2 ^ 53 + 3)).2.2⟩ false []).1.bytes_copied := by
  rw [offsets_big3]
  norm_num [Child.update]

/-- C10 (amended): along every interleaving each worker's cached
`bytes_copied` is nondecreasing and bounded by its planned length, every new
REPORT carries a value strictly below the planned length, and for any file of
at most `2^53` bytes the per-tick aggregated sum over all workers never
exceeds the file size. -/
theorem c10_amended :
    (∀ readLen s t, Reachable readLen s → Step readLen s t →
      s.cache ≤ t.cache ∧ s.cache ≤ readLen
      ∧ (∀ x ∈ t.rep, x ∈ s.rep ∨ x < readLen))
    ∧ (∀ (f N : ℕ) (st : ℕ → PState), 1 ≤ N → f ≤ 2 ^ 53 →
      (∀ i, i < N → Reachable ((get_copy_offsets i N f).2.2) (st i)) →
      (Finset.range N).sum (fun i => (st i).cache) ≤ f) := by
  constructor
  · intro readLen s t hreach hstep
    have hInv := inv_reachable hreach
    exact ⟨cache_mono hInv hstep, hInv.2.2.2.1, step_new_reports hstep⟩
  · intro f N st hN hf hall
    have htel : ∀ K : ℕ,
        (Finset.range K).sum (fun i => getpos (i + 1) N f - getpos i N f)
          = getpos K N f - getpos 0 N f := by
      intro K
      induction K with
      | zero => simp
      | succ k ihk =>
        rw [Finset.sum_range_succ, ihk]
        have h1 : getpos 0 N f ≤ getpos k N f := getpos_mono (by omega)
        have h2 : getpos k N f ≤ getpos (k + 1) N f := getpos_mono (by omega)
        omega
    calc (Finset.range N).sum (fun i => (st i).cache)
        ≤ (Finset.range N).sum (fun i => (get_copy_offsets i N f).2.2) := by
          apply Finset.sum_le_sum
          intro i hi
          exact (inv_reachable (hall i (Finset.mem_range.mp hi))).2.2.2.1
      _ = (Finset.range N).sum (fun i => getpos (i + 1) N f - getpos i N f) := by
          apply Finset.sum_congr rfl
          intro i _
          rw [offsets_len]
      _ = f := by
          rw [htel N, getpos_zero, getpos_last hN hf, Nat.sub_zero]

theorem c10_witness :
    (startState.cache ≤ (⟨1, [], 0, 0⟩ : PState).cache ∧ startState.cache ≤ 2
      ∧ (∀ x ∈ (⟨1, [], 0, 0⟩ : PState).rep, x ∈ startState.rep ∨ x < 2))
    ∧ (Finset.range 1).sum (fun i => ((fun _ : ℕ => startState) i).cache) ≤ 5 := by
  constructor
  · exact c10_amended.1 2 startState ⟨1, [], 0, 0⟩ Relation.ReflTransGen.refl
      (show Step 2 startState ⟨1, [], 0, 0⟩ from Step.tick startState)
  · exact c10_amended.2 5 1 (fun _ => startState) (by norm_num) (by norm_num)
      (fun i hi => Relation.ReflTransGen.refl)

end ParallelCp
